import Mathlib

/-!
Shallow embedding of the mesh-partitioning and node-reordering core of
`src/Inciter/Partitioner.h` (quinoa).

Conventions used throughout:
* `std::unordered_map` / `std::map` are modelled as association lists
  (`List (Nat × _)`) with unique keys, equipped with lookup / overwrite-insert
  / append-to-entry operations mirroring `find`, `operator[] = v` and
  `operator[].push_back`.
* `std::set< std::size_t >` is modelled as `List Nat` with membership.
* Machine integers (`int`, `std::size_t`) are modelled as `Nat`; all the
  quantities involved (PE counts, chare counts, node IDs) are non-negative in
  the source.
* `tk::real` (a C++ `double`) is modelled as the exact rationals `ℚ`.
* C++ undefined behaviour (division by zero in `pe`) is modelled by an
  `Option` result, `none` on the undefined case.
-/

namespace Quinoa

/-- Association-list lookup; models `std::unordered_map::find`. -/
def lookupA {α : Type} : List (Nat × α) → Nat → Option α
  | [], _ => none
  | (k, v) :: m, i => if k = i then some v else lookupA m i

/-- Association-list overwrite-insert; models `m[k] = v` on
`std::unordered_map`, which replaces the value when the key is present and
creates the entry otherwise. -/
def insertA {α : Type} : List (Nat × α) → Nat → α → List (Nat × α)
  | [], k, v => [(k, v)]
  | (k', v') :: m, k, v =>
    if k' = k then (k', v) :: m else (k', v') :: insertA m k v

/-- Append a block of values to the entry of key `k`, creating the entry when
absent; models `nodes[k].push_back(x)` repeated over `ns` on an
`std::unordered_map< int, std::vector<std::size_t> >`. -/
def appendNodes : List (Nat × List Nat) → Nat → List Nat → List (Nat × List Nat)
  | [], k, ns => [(k, ns)]
  | (k', v) :: m, k, ns =>
    if k' = k then (k', v ++ ns) :: m else (k', v) :: appendNodes m k ns

/-! ## The ownership predicate of `Partitioner::reorder`

Source (`Partitioner.h`, lines 150–159):
```
auto own = [ &comm ]( std::size_t p ) {
  using Set = std::remove_reference<decltype(comm)>::type::value_type;
  return !std::any_of( comm.cbegin(), comm.cbegin(),
                       [&](const Set& s){
                         if (s.second.find(p) != s.second.cend())
                           return true;
                         else
                           return false;
                       } );
};
```
The iterator range `[comm.cbegin(), comm.cbegin())` is empty, which we model
faithfully with `comm.take 0`. -/

/-- The `own` lambda of `reorder` exactly as written in the source: `any_of`
over the range `[comm.cbegin(), comm.cbegin())`, i.e. over the empty prefix
`comm.take 0` of the communication map. -/
def own (comm : List (Nat × List Nat)) (p : Nat) : Bool :=
  !((comm.take 0).any fun s => if s.2.contains p then true else false)

/-- Modelled from the spec: the intended `own` predicate, scanning the whole
communication map `[comm.cbegin(), comm.cend())` — a node ID is owned here iff
no peer's entry of the communication map lists it as to-be-fetched remotely. -/
def own_intended (comm : List (Nat × List Nat)) (p : Nat) : Bool :=
  !(comm.any fun s => if s.2.contains p then true else false)

/-! ## The local assignment loop of `Partitioner::reorder`

Source (lines 165–169):
```
for (auto& p : m_id)
  if (own(p)) {
    m_newid[ p ] = n++;
    ++m_reordered;
  }
```
We record the sequence of `(old ID, new ID)` assignments the loop performs. -/

/-- The assignment loop of `reorder`: walks `m_id` in order and, for every ID
the `own` predicate accepts, assigns the next counter value `n`. Returns the
list of `(old, new)` pairs in assignment order. -/
def reorder_assign (comm : List (Nat × List Nat)) : Nat → List Nat → List (Nat × Nat)
  | _, [] => []
  | n, p :: ps =>
    if own comm p then (p, n) :: reorder_assign comm (n + 1) ps
    else reorder_assign comm n ps

/-! ## Chare distribution and chare-to-PE routing

Source, `chareDistribution` (lines 416–421) and `pe` (lines 432–437):
```
std::pair< int, int > chareDistribution() const {
  auto chunksize = m_nchare / CkNumPes();
  auto mynchare = chunksize;
  if (CkMyPe() == CkNumPes()-1) mynchare += m_nchare % CkNumPes();
  return { chunksize, mynchare };
}

int pe( int id ) const {
  auto p = id / (m_nchare / CkNumPes());
  if (p >= CkNumPes()) p = CkNumPes()-1;
  return p;
}
```
-/

/-- `chareDistribution`: chunk size (chares per PE, except the last) and the
number of chares of PE `mype`; the last PE absorbs the remainder. -/
def chareDistribution (nchare npes mype : Nat) : Nat × Nat :=
  let chunksize := nchare / npes
  let mynchare := chunksize + (if mype = npes - 1 then nchare % npes else 0)
  (chunksize, mynchare)

/-- `pe`: the PE owning chare `id`, by flooring division with the chunk size
and clamping to the last PE. The divisor `nchare / npes` is zero when
`nchare < npes` (and when `npes = 0`); there the C++ division is undefined
behaviour, modelled as `none`. -/
def pe (nchare npes id : Nat) : Option Nat :=
  if nchare / npes = 0 then none
  else
    let p := id / (nchare / npes)
    some (if npes ≤ p then npes - 1 else p)

/-- Modelled from the spec: the distribution function the spec attributes to
the code, `owner(unitID) = unitID / ceil(nUnits/nProcesses)`. -/
def owner_spec (nchare npes id : Nat) : Nat :=
  id / ((nchare + npes - 1) / npes)

/-- The value `pe` actually computes on its defined domain: floor-division by
the chunk size, clamped to the index of the last PE. -/
def peClamp (nchare npes id : Nat) : Nat :=
  min (id / (nchare / npes)) (npes - 1)

/-- First chare ID owned by PE `p`: `distribute`/`create` enumerate the owned
chare IDs as `CkMyPe() * chunksize + c` for `c < mynchare`. -/
def chareRangeLo (nchare npes p : Nat) : Nat :=
  p * (chareDistribution nchare npes p).1

/-- One past the last chare ID owned by PE `p`. -/
def chareRangeHi (nchare npes p : Nat) : Nat :=
  chareRangeLo nchare npes p + (chareDistribution nchare npes p).2

/-! ### Basic lemmas about `own` -/

/-- `own` scans an empty iterator range, so it accepts every node ID. -/
theorem own_const_true (comm : List (Nat × List Nat)) (p : Nat) :
    own comm p = true := rfl

/-- C2. The claim states that `own p` holds iff `p` occurs in no peer entry of
the communication map, so a process must not assign `p` when some entry lists
it. The code disagrees: `std::any_of` is called on the empty range
`[comm.cbegin(), comm.cbegin())`, hence `own` is true even for an ID the
communication map lists — at `comm = [(0, [5])]` the source predicate accepts
node 5 although entry 0 of `comm` contains it, while the intended predicate
(scanning up to `comm.cend()`) rejects it. -/
theorem own_contradicts_comm :
    own [(0, [5])] 5 = true ∧
    (5 : Nat) ∈ ([5] : List Nat) ∧
    own_intended [(0, [5])] 5 = false := by decide

/-- C1. Exactly-once assignment fails on the code: take two PEs sharing old
node ID 5, where PE 1's communication map `[(0, [5])]` records that node 5's
new ID is to be fetched from PE 0 (so by the intended ownership rule PE 1 must
not assign it). Running the assignment loop of `reorder` on both PEs, both
assign node 5 a new ID (PE 0 gives it 0, PE 1 gives it 1), because `own` scans
an empty iterator range and accepts every ID — a duplicate assignment, not
exactly one. -/
theorem reorder_duplicate_assignment :
    own_intended [(0, [5])] 5 = false ∧
    reorder_assign [] 0 [5] = [(5, 0)] ∧
    reorder_assign [(0, [5])] 1 [5] = [(5, 1)] := by decide

/-- C5. The local assignment loop of `reorder(n, comm)` assigns, to the old
IDs of `m_id` accepted by the `own` predicate in order, exactly the contiguous
block of new IDs `n, n+1, …, n+k−1` where `k` is the number of accepted
(owned) IDs: the assigned old IDs are `m_id.filter own` and the assigned new
IDs are `List.range' n k` — no gaps, no repeats. -/
theorem reorder_assign_contiguous (comm : List (Nat × List Nat)) (n : Nat)
    (ids : List Nat) :
    (reorder_assign comm n ids).map Prod.fst = ids.filter (own comm) ∧
    (reorder_assign comm n ids).map Prod.snd =
      List.range' n (ids.countP (own comm)) := by
  induction ids generalizing n with
  | nil => simp [reorder_assign]
  | cons p ps ih =>
    by_cases h : own comm p
    · simp [reorder_assign, h, List.countP_cons, List.range'_succ, ih (n + 1)]
    · simp [reorder_assign, h, List.countP_cons, ih n]

/-- C4 counterexample: the code's routing function disagrees with the spec's
`owner(unitID) = unitID / ceil(nUnits/nProcesses)` — with 7 chares on 3 PEs,
chare 2 is routed to PE 1 by the code (`2 / (7/3) = 1`) but to PE 0 by the
spec's formula (`2 / ceil(7/3) = 2 / 3 = 0`). -/
theorem pe_ne_owner_spec :
    pe 7 3 2 = some 1 ∧ owner_spec 7 3 2 = 0 := by decide

/-- On its defined domain (positive chunk size), `pe` computes the clamped
floor division `peClamp`. -/
theorem pe_eq_clamp (nchare npes id : Nat) (h1 : 1 ≤ npes)
    (hchunk : 1 ≤ nchare / npes) :
    pe nchare npes id = some (peClamp nchare npes id) := by
  unfold pe peClamp
  rw [if_neg (by omega)]
  show some (if npes ≤ id / (nchare / npes) then npes - 1
             else id / (nchare / npes)) = _
  by_cases h : npes ≤ id / (nchare / npes)
  · rw [if_pos h, min_eq_right (by omega)]
  · rw [if_neg h, min_eq_left (by omega)]

/-- C4 as amended: for `nUnits ≥ nProcesses ≥ 1` and every chare
`id < nUnits`, `pe` computes `min (id / (nUnits / nProcesses)) (nProcesses−1)`
— floor division by the chunk size with the last PE absorbing the remainder —
which is a valid PE index and agrees with the contiguous chare ranges derived
from `chareDistribution`: `id` lies in the chare range of the PE `pe` routes
it to. -/
theorem pe_floor_clamp (nchare npes id : Nat) (h1 : 1 ≤ npes)
    (h2 : npes ≤ nchare) (h3 : id < nchare) :
    pe nchare npes id = some (peClamp nchare npes id) ∧
    peClamp nchare npes id < npes ∧
    chareRangeLo nchare npes (peClamp nchare npes id) ≤ id ∧
    id < chareRangeHi nchare npes (peClamp nchare npes id) := by
  have hchunk : 1 ≤ nchare / npes := (Nat.one_le_div_iff h1).mpr h2
  refine ⟨pe_eq_clamp nchare npes id h1 hchunk, ?_, ?_, ?_⟩
  · unfold peClamp
    have : npes - 1 < npes := by omega
    exact lt_of_le_of_lt (min_le_right _ _) this
  · unfold chareRangeLo chareDistribution peClamp
    simp only
    calc min (id / (nchare / npes)) (npes - 1) * (nchare / npes)
        ≤ id / (nchare / npes) * (nchare / npes) :=
          Nat.mul_le_mul_right _ (min_le_left _ _)
      _ ≤ id := Nat.div_mul_le_self id (nchare / npes)
  · unfold chareRangeHi chareRangeLo chareDistribution peClamp
    simp only
    set c := nchare / npes with hc
    obtain ⟨m, rfl⟩ : ∃ m, npes = m + 1 := ⟨npes - 1, by omega⟩
    simp only [Nat.add_sub_cancel]
    have hdm : c * (id / c) + id % c = id := Nat.div_add_mod id c
    have hmlt : id % c < c := Nat.mod_lt id (by omega)
    by_cases h : id / c ≤ m
    · rw [min_eq_left h]
      have hcomm : id / c * c = c * (id / c) := Nat.mul_comm _ _
      by_cases hlast : id / c = m
      · rw [if_pos hlast]
        omega
      · rw [if_neg hlast]
        omega
    · rw [min_eq_right (by omega), if_pos rfl]
      have hdm2 : (m + 1) * c + nchare % (m + 1) = nchare := by
        have := Nat.div_add_mod nchare (m + 1)
        have : (m + 1) * c = (m + 1) * (nchare / (m + 1)) := by rw [hc]
        omega
      have hexp : (m + 1) * c = m * c + c := by ring
      omega

/-- Witness for `pe_floor_clamp` at `nchare = 7`, `npes = 3`, `id = 6`. -/
theorem pe_floor_clamp_witness :
    pe 7 3 6 = some (peClamp 7 3 6) ∧
    peClamp 7 3 6 < 3 ∧
    chareRangeLo 7 3 (peClamp 7 3 6) ≤ 6 ∧
    6 < chareRangeHi 7 3 (peClamp 7 3 6) :=
  pe_floor_clamp 7 3 6 (by decide) (by decide) (by decide)

/-- C10. `pe` divides by the integer quotient `m_nchare / CkNumPes()`: when
`nUnits ≥ nProcesses` the quotient is positive and `pe` is total, returning a
PE index in `[0, nProcesses)` for every chare ID; when `nUnits < nProcesses`
the divisor is zero and the division is undefined (modelled by `none`). -/
theorem pe_total_iff_enough_chares (nchare npes id : Nat) (h : 1 ≤ npes) :
    (npes ≤ nchare → ∃ p, pe nchare npes id = some p ∧ p < npes) ∧
    (nchare < npes → nchare / npes = 0 ∧ pe nchare npes id = none) := by
  constructor
  · intro h2
    have hchunk : 1 ≤ nchare / npes := (Nat.one_le_div_iff h).mpr h2
    refine ⟨peClamp nchare npes id, pe_eq_clamp nchare npes id h hchunk, ?_⟩
    · unfold peClamp
      have : npes - 1 < npes := by omega
      exact lt_of_le_of_lt (min_le_right _ _) this
  · intro h2
    have hz : nchare / npes = 0 := Nat.div_eq_of_lt h2
    exact ⟨hz, by unfold pe; rw [if_pos hz]⟩

/-- Witness for `pe_total_iff_enough_chares` at `(7, 3, 100)` (total, with
clamping) and `(2, 3, 0)` (division by zero). -/
theorem pe_total_iff_enough_chares_witness :
    (∃ p, pe 7 3 100 = some p ∧ p < 3) ∧ (2 / 3 = 0 ∧ pe 2 3 0 = none) :=
  ⟨(pe_total_iff_enough_chares 7 3 100 (by decide)).1 (by decide),
   (pe_total_iff_enough_chares 2 3 0 (by decide)).2 (by decide)⟩

/-! ## Communication cost of linear system merging

Source, `cost` (lines 558–563):
```
tk::real cost( std::size_t lower, std::size_t upper ) {
  std::size_t ownpts = 0, compts = 0;
  for (auto p : m_id) if (p >= lower && p < upper) ++ownpts; else ++compts;
  return static_cast<tk::real>(compts) /
         static_cast<tk::real>(ownpts + compts);
}
```
`tk::real` is modelled as the exact rationals. -/

/-- Predicate of the counting loop of `cost`: node `p` is owned, i.e. lies in
the half-open range `[lower, upper)`. -/
def ownedPt (lower upper p : Nat) : Bool :=
  decide (lower ≤ p) && decide (p < upper)

/-- `cost`: the fraction of contributed node IDs outside `[lower, upper)`. -/
def cost (m_id : List Nat) (lower upper : Nat) : ℚ :=
  let ownpts := m_id.countP (fun p => ownedPt lower upper p)
  let compts := m_id.countP (fun p => !ownedPt lower upper p)
  (compts : ℚ) / ((ownpts : ℚ) + (compts : ℚ))

/-- C8. For a non-empty contributed-node set, `cost lower upper` equals the
number of contributed IDs outside `[lower, upper)` divided by the total number
of contributed IDs, lies in `[0, 1]`, and vanishes exactly when every
contributed ID lies in `[lower, upper)` (the process owns 100% of its
contributed nodes). -/
theorem cost_spec (m_id : List Nat) (lower upper : Nat) (h : m_id ≠ []) :
    cost m_id lower upper =
      (m_id.countP (fun p => !ownedPt lower upper p) : ℚ) / (m_id.length : ℚ) ∧
    0 ≤ cost m_id lower upper ∧
    cost m_id lower upper ≤ 1 ∧
    (cost m_id lower upper = 0 ↔ ∀ p ∈ m_id, lower ≤ p ∧ p < upper) := by
  have hsplit :
      m_id.countP (fun p => ownedPt lower upper p) +
        m_id.countP (fun p => !ownedPt lower upper p) = m_id.length := by
    rw [List.length_eq_countP_add_countP (fun p => ownedPt lower upper p)]
    simp [decide_not]
  have hlen : 0 < m_id.length := List.length_pos.mpr h
  have hlenQ : (0 : ℚ) < (m_id.length : ℚ) := by exact_mod_cast hlen
  have hden :
      ((m_id.countP (fun p => ownedPt lower upper p) : ℚ) +
        (m_id.countP (fun p => !ownedPt lower upper p) : ℚ)) =
      (m_id.length : ℚ) := by exact_mod_cast hsplit
  have heq : cost m_id lower upper =
      (m_id.countP (fun p => !ownedPt lower upper p) : ℚ) /
        (m_id.length : ℚ) := by
    simp only [cost]
    rw [hden]
  refine ⟨heq, ?_, ?_, ?_⟩
  · rw [heq]
    exact div_nonneg (by positivity) (le_of_lt hlenQ)
  · rw [heq]
    rw [div_le_one hlenQ]
    exact_mod_cast Nat.le_of_lt_succ
      (Nat.lt_succ_of_le (List.countP_le_length _))
  · rw [heq, div_eq_zero_iff]
    constructor
    · intro hc p hp
      rcases hc with hc | hc
      · have hc0 : m_id.countP (fun p => !ownedPt lower upper p) = 0 := by
          exact_mod_cast hc
        have := List.countP_eq_zero.mp hc0 p hp
        simp only [ownedPt, Bool.not_eq_true', Bool.not_eq_false] at this
        constructor <;> [exact of_decide_eq_true (Bool.and_elim_left this);
          exact of_decide_eq_true (Bool.and_elim_right this)]
      · exact absurd hc (ne_of_gt hlenQ)
    · intro hall
      left
      have hc0 : m_id.countP (fun p => !ownedPt lower upper p) = 0 := by
        rw [List.countP_eq_zero]
        intro p hp
        have := hall p hp
        simp [ownedPt, this.1, this.2]
      exact_mod_cast hc0

/-- Witness for `cost_spec` at `m_id = [1, 5]`, `lower = 0`, `upper = 4`
(node 1 owned, node 5 not). -/
theorem cost_spec_witness :
    0 ≤ cost [1, 5] 0 4 ∧ cost [1, 5] 0 4 ≤ 1 :=
  ⟨(cost_spec [1, 5] 0 4 (by decide)).2.1,
   (cost_spec [1, 5] 0 4 (by decide)).2.2.1⟩

/-! ## The per-chare inverse maps built by `Partitioner::reordered`

Source (lines 466–469):
```
for (const auto& c : m_node) {
  auto& m = m_chcid[ c.first ];
  for (auto p : c.second) m[ tk::val_find(m_newid,p) ] = p;
}
```
Per chare `c`, the inner loop walks the chare's old node IDs and stores
`newid(p) ↦ p` into the chare's inverse map, overwriting on key collision
(`operator[]` assignment). `m_newid`, complete at this point for every
contributed node, is modelled as the function `newid`. -/

/-- Inner loop of `reordered` for one chare: fold the chare's old-node list
into an inverse map `newid(p) ↦ p` with overwrite-insert semantics. -/
def reordered_chcid (newid : Nat → Nat) : List Nat → List (Nat × Nat) → List (Nat × Nat)
  | [], m => m
  | p :: ps, m => reordered_chcid newid ps (insertA m (newid p) p)

/-- Looking up the key just overwritten returns the new value. -/
theorem lookupA_insertA_same {α : Type} (m : List (Nat × α)) (k : Nat) (v : α) :
    lookupA (insertA m k v) k = some v := by
  induction m with
  | nil => simp [insertA, lookupA]
  | cons e m ih =>
    obtain ⟨k', v'⟩ := e
    by_cases h : k' = k
    · simp [insertA, h, lookupA]
    · simp [insertA, h, lookupA, ih]

/-- Overwriting one key leaves lookups of other keys unchanged. -/
theorem lookupA_insertA_ne {α : Type} (m : List (Nat × α)) (k i : Nat) (v : α)
    (h : k ≠ i) : lookupA (insertA m k v) i = lookupA m i := by
  induction m with
  | nil => simp [insertA, lookupA, h]
  | cons e m ih =>
    obtain ⟨k', v'⟩ := e
    by_cases h' : k' = k
    · subst h'
      simp [insertA, lookupA, h]
    · simp [insertA, h', lookupA, ih]

/-- If no remaining old ID maps to key `i`, the inner loop of `reordered`
leaves the lookup of `i` unchanged. -/
theorem reordered_chcid_preserves (newid : Nat → Nat) (ps : List Nat)
    (m : List (Nat × Nat)) (i : Nat) (h : ∀ q ∈ ps, newid q ≠ i) :
    lookupA (reordered_chcid newid ps m) i = lookupA m i := by
  induction ps generalizing m with
  | nil => rfl
  | cons q qs ih =>
    rw [reordered_chcid, ih _ (fun r hr => h r (List.mem_cons_of_mem q hr)),
      lookupA_insertA_ne _ _ _ _ (h q (List.mem_cons_self q qs))]

/-- Generalized round trip: starting the inner loop of `reordered` from any
accumulator, an old ID `p` in the chare's list whose new ID is not shared with
any other listed old ID can be recovered by lookup at `newid p`. -/
theorem reordered_chcid_roundtrip_gen (newid : Nat → Nat) (ps : List Nat)
    (m : List (Nat × Nat)) (p : Nat) (hp : p ∈ ps)
    (hinj : ∀ q ∈ ps, newid q = newid p → q = p) :
    lookupA (reordered_chcid newid ps m) (newid p) = some p := by
  induction ps generalizing m with
  | nil => cases hp
  | cons q qs ih =>
    by_cases hq : p ∈ qs
    · exact ih _ hq (fun r hr he => hinj r (List.mem_cons_of_mem q hr) he)
    · have hpq : p = q := by
        rcases List.mem_cons.mp hp with h | h
        · exact h
        · exact absurd h hq
      subst hpq
      rw [reordered_chcid,
        reordered_chcid_preserves newid qs _ (newid p) ?_,
        lookupA_insertA_same]
      intro r hr he
      have hrp : r = p := hinj r (List.mem_cons_of_mem p hr) he
      exact hq (hrp ▸ hr)

/-- C6. Round trip through the per-chare inverse map: for a chare whose
old-node list is `ps` (an entry of `m_node` before the in-place update), and
an old node ID `p ∈ ps` whose new ID `newid p` is assigned to no other old ID
of the chare, the inverse map built by `reordered` recovers `p`:
`m_chcid[c][m_newid[p]] = p`. -/
theorem chcid_roundtrip (newid : Nat → Nat) (ps : List Nat) (p : Nat)
    (hp : p ∈ ps) (hinj : ∀ q ∈ ps, newid q = newid p → q = p) :
    lookupA (reordered_chcid newid ps []) (newid p) = some p :=
  reordered_chcid_roundtrip_gen newid ps [] p hp hinj

/-- Witness for `chcid_roundtrip`: chare node list `[1, 2, 3]`, new IDs
assigned by `q ↦ q + 10`, recovering old ID 2 from new ID 12. -/
theorem chcid_roundtrip_witness :
    lookupA (reordered_chcid (fun q => q + 10) [1, 2, 3] []) (2 + 10) = some 2 :=
  chcid_roundtrip (fun q => q + 10) [1, 2, 3] 2 (by decide) (by decide)

/-! ## `Partitioner::chareNodes`

Source (lines 339–372):
```
std::unordered_map< int, std::vector< std::size_t > >
chareNodes( const std::vector< std::size_t >& che ) const
{
  std::unordered_map< int, std::vector< std::size_t > > nodes;
  for (std::size_t e=0; e<che.size(); ++e) {
    auto& c = nodes[ static_cast<int>(che[e]) ];
    for (std::size_t n=0; n<4; ++n) c.push_back( m_tetinpoel[e*4+n] );
  }
  for(const auto& c : nodes)
    ErrChk( !c.second.empty(), "Overdecomposition of the mesh is too
            large ..." );
  return nodes;
}
```
We model the connectivity `m_tetinpoel` as `tet : List Nat` and the chare
ownership array as `che : List Nat` (chare IDs are non-negative), and the
`ErrChk` failure (a fatal configuration error, `tk::Exception`) as the
`Except.error` branch. The `Assert` statements are compiled out in release
builds (the source comments that only `ErrChk` is always evaluated), so only
the `ErrChk` is modelled. -/

/-- The four node IDs of element `e` in the flat tetrahedron connectivity:
`m_tetinpoel[e*4+n]` for `n = 0, 1, 2, 3`. -/
def elemNodes (tet : List Nat) (e : Nat) : List Nat :=
  [tet.getD (e * 4) 0, tet.getD (e * 4 + 1) 0,
   tet.getD (e * 4 + 2) 0, tet.getD (e * 4 + 3) 0]

/-- The elementwise grouping loop of `chareNodes`: walk the ownership array
`che` with the running element index `e`, appending each element's four node
IDs to the map entry of its owning chare. -/
def chareNodesAcc (tet : List Nat) : List Nat → Nat → List (Nat × List Nat) →
    List (Nat × List Nat)
  | [], _, m => m
  | c :: cs, e, m => chareNodesAcc tet cs (e + 1) (appendNodes m c (elemNodes tet e))

/-- `chareNodes`: build the chare → node-IDs groupings, then fail with the
overdecomposition configuration error when some grouping is empty. -/
def chareNodes (tet che : List Nat) : Except String (List (Nat × List Nat)) :=
  let nodes := chareNodesAcc tet che 0 []
  if nodes.any (fun c => c.2.isEmpty) then
    Except.error "Overdecomposition of the mesh is too large compared to the number of work units"
  else
    Except.ok nodes

/-- The nodes the grouping loop contributes to chare `c` from the elements of
`che`, elements counted from index `e`: the concatenation, in element order,
of the four-node blocks of the elements `che` assigns to `c`. -/
def chareEntry (tet : List Nat) : List Nat → Nat → Nat → List Nat
  | [], _, _ => []
  | c' :: cs, e, c =>
    (if c' = c then elemNodes tet e else []) ++ chareEntry tet cs (e + 1) c

/-- Appending to an entry: lookup of the touched key returns the old value
(or nothing) extended by the appended block. -/
theorem lookupA_appendNodes_same (m : List (Nat × List Nat)) (k : Nat)
    (ns : List Nat) :
    lookupA (appendNodes m k ns) k = some ((lookupA m k).getD [] ++ ns) := by
  induction m with
  | nil => simp [appendNodes, lookupA]
  | cons e m ih =>
    obtain ⟨k', v⟩ := e
    by_cases h : k' = k
    · simp [appendNodes, h, lookupA]
    · simp [appendNodes, h, lookupA, ih]

/-- Appending to one entry leaves lookups of other keys unchanged. -/
theorem lookupA_appendNodes_ne (m : List (Nat × List Nat)) (k i : Nat)
    (ns : List Nat) (h : k ≠ i) :
    lookupA (appendNodes m k ns) i = lookupA m i := by
  induction m with
  | nil => simp [appendNodes, lookupA, h]
  | cons e m ih =>
    obtain ⟨k', v⟩ := e
    by_cases h' : k' = k
    · subst h'
      simp [appendNodes, lookupA, h]
    · simp [appendNodes, h', lookupA, ih]

/-- Running the grouping loop extends an existing entry `c` by exactly the
blocks of the elements assigned to `c`, in element order. -/
theorem chareNodesAcc_lookup_some (tet : List Nat) (che : List Nat) (e : Nat)
    (m : List (Nat × List Nat)) (c : Nat) (v : List Nat)
    (hm : lookupA m c = some v) :
    lookupA (chareNodesAcc tet che e m) c = some (v ++ chareEntry tet che e c) := by
  induction che generalizing e m v with
  | nil => simpa [chareNodesAcc, chareEntry] using hm
  | cons c' cs ih =>
    rw [chareNodesAcc, chareEntry]
    by_cases h : c' = c
    · subst h
      have : lookupA (appendNodes m c' (elemNodes tet e)) c' =
          some (v ++ elemNodes tet e) := by
        rw [lookupA_appendNodes_same, hm]
        rfl
      rw [ih (e + 1) _ _ this, if_pos rfl, List.append_assoc]
    · have : lookupA (appendNodes m c' (elemNodes tet e)) c = some v := by
        rw [lookupA_appendNodes_ne _ _ _ _ h, hm]
      rw [ih (e + 1) _ _ this, if_neg h, List.nil_append]

/-- Running the grouping loop from an accumulator without an entry for `c`
produces exactly the blocks of the elements assigned to `c` when there are
any, and no entry otherwise. -/
theorem chareNodesAcc_lookup_none (tet : List Nat) (che : List Nat) (e : Nat)
    (m : List (Nat × List Nat)) (c : Nat) (hm : lookupA m c = none) :
    lookupA (chareNodesAcc tet che e m) c =
      if c ∈ che then some (chareEntry tet che e c) else none := by
  induction che generalizing e m with
  | nil => simpa [chareNodesAcc, chareEntry] using hm
  | cons c' cs ih =>
    rw [chareNodesAcc, chareEntry]
    by_cases h : c' = c
    · subst h
      have : lookupA (appendNodes m c' (elemNodes tet e)) c' =
          some ([] ++ elemNodes tet e) := by
        rw [lookupA_appendNodes_same, hm]
        rfl
      rw [chareNodesAcc_lookup_some tet cs (e + 1) _ _ _ this, if_pos rfl,
        if_pos (List.mem_cons_self c' cs), List.nil_append]
    · have : lookupA (appendNodes m c' (elemNodes tet e)) c = none := by
        rw [lookupA_appendNodes_ne _ _ _ _ h, hm]
      rw [ih (e + 1) _ this, if_neg h, List.nil_append]
      by_cases hc : c ∈ cs
      · rw [if_pos hc, if_pos (List.mem_cons_of_mem c' hc)]
      · rw [if_neg hc, if_neg (by simp [List.mem_cons, h, hc, Ne.symm])]

/-- The block of the `i`-th element of `che` occurs inside the grouping entry
of the chare it is assigned to. -/
theorem chareEntry_infix (tet : List Nat) (che : List Nat) (e i : Nat)
    (hi : i < che.length) :
    elemNodes tet (e + i) <:+: chareEntry tet che e (che.getD i 0) := by
  induction che generalizing e i with
  | nil => simp at hi
  | cons c' cs ih =>
    cases i with
    | zero =>
      rw [chareEntry]
      simp only [List.getD_cons_zero, if_pos rfl, Nat.add_zero]
      exact ((List.prefix_append _ _).isInfix)
    | succ j =>
      rw [chareEntry]
      simp only [List.getD_cons_succ]
      have hj : j < cs.length := by simpa using hi
      have := ih (e + 1) j hj
      have harith : e + 1 + j = e + (j + 1) := by omega
      rw [harith] at this
      exact this.trans (List.suffix_append _ _).isInfix

/-- C7. `chareNodes` (i) appends each element's four node IDs to the grouping
of the chare `che` assigns it to — the entry of chare `che[i]` exists and
contains element `i`'s block `[tet[4i], tet[4i+1], tet[4i+2], tet[4i+3]]` as a
contiguous segment, and equals exactly the in-order concatenation of the
blocks of the elements assigned to that chare — and (ii) fails with the fatal
overdecomposition configuration error exactly when some grouping in the built
map is empty. -/
theorem chareNodes_spec (tet che : List Nat) :
    (∀ i, i < che.length →
      lookupA (chareNodesAcc tet che 0 []) (che.getD i 0) =
        some (chareEntry tet che 0 (che.getD i 0)) ∧
      elemNodes tet i <:+: chareEntry tet che 0 (che.getD i 0)) ∧
    ((∃ msg, chareNodes tet che = Except.error msg) ↔
      ∃ p ∈ chareNodesAcc tet che 0 [], p.2 = []) := by
  constructor
  · intro i hi
    have hmem : che.getD i 0 ∈ che := by
      rw [List.getD_eq_getElem?_getD, List.getElem?_eq_getElem hi]
      exact List.getElem_mem _
    refine ⟨?_, ?_⟩
    · rw [chareNodesAcc_lookup_none tet che 0 [] _ rfl, if_pos hmem]
    · simpa using chareEntry_infix tet che 0 i hi
  · unfold chareNodes
    by_cases h : (chareNodesAcc tet che 0 []).any (fun c => c.2.isEmpty)
    · simp only [h, if_pos]
      constructor
      · intro _
        obtain ⟨p, hp, he⟩ := List.any_eq_true.mp h
        exact ⟨p, hp, List.isEmpty_iff.mp he⟩
      · intro _
        exact ⟨_, rfl⟩
    · simp only [h, if_neg, Bool.false_eq_true]
      constructor
      · rintro ⟨msg, hmsg⟩
        simp at hmsg
      · rintro ⟨p, hp, he⟩
        have hc : (chareNodesAcc tet che 0 []).any (fun c => c.2.isEmpty) = true :=
          List.any_eq_true.mpr ⟨p, hp, List.isEmpty_iff.mpr he⟩
        exact absurd hc h

/-- Witness for `chareNodes_spec` with one element `[7, 8, 9, 10]` assigned to
chare 0. -/
theorem chareNodes_spec_witness :
    lookupA (chareNodesAcc [7, 8, 9, 10] [0] 0 []) 0 =
      some (chareEntry [7, 8, 9, 10] [0] 0 0) ∧
    elemNodes [7, 8, 9, 10] 0 <:+: chareEntry [7, 8, 9, 10] [0] 0 0 :=
  (chareNodes_spec [7, 8, 9, 10] [0]).1 0 (by decide)

/-- Appending a four-node block preserves the invariant that every grouping
holds a positive multiple of four node IDs. -/
theorem appendNodes_block_invariant (m : List (Nat × List Nat)) (k : Nat)
    (ns : List Nat) (hns : ns.length = 4)
    (hm : ∀ p ∈ m, 4 ≤ p.2.length ∧ p.2.length % 4 = 0) :
    ∀ p ∈ appendNodes m k ns, 4 ≤ p.2.length ∧ p.2.length % 4 = 0 := by
  induction m with
  | nil =>
    intro p hp
    simp only [appendNodes, List.mem_singleton] at hp
    subst hp
    simp [hns]
  | cons e m ih =>
    obtain ⟨k', v⟩ := e
    intro p hp
    by_cases h : k' = k
    · simp only [appendNodes, if_pos h, List.mem_cons] at hp
      rcases hp with hp | hp
      · subst hp
        have := hm (k', v) (List.mem_cons_self _ _)
        simp only [List.length_append, hns]
        simp only at this
        omega
      · exact hm p (List.mem_cons_of_mem _ hp)
    · simp only [appendNodes, if_neg h, List.mem_cons] at hp
      rcases hp with hp | hp
      · subst hp
        exact hm _ (List.mem_cons_self _ _)
      · exact ih (fun q hq => hm q (List.mem_cons_of_mem _ hq)) p hp

/-- The grouping loop preserves the positive-multiple-of-four invariant. -/
theorem chareNodesAcc_block_invariant (tet : List Nat) (che : List Nat)
    (e : Nat) (m : List (Nat × List Nat))
    (hm : ∀ p ∈ m, 4 ≤ p.2.length ∧ p.2.length % 4 = 0) :
    ∀ p ∈ chareNodesAcc tet che e m, 4 ≤ p.2.length ∧ p.2.length % 4 = 0 := by
  induction che generalizing e m with
  | nil => exact hm
  | cons c cs ih =>
    rw [chareNodesAcc]
    exact ih (e + 1) _ (appendNodes_block_invariant m c (elemNodes tet e) rfl hm)

/-- C9. A map entry is created only when an element is assigned to that chare
and it immediately receives that element's four node IDs: every grouping built
by `chareNodes` holds at least 4 node IDs and a multiple of 4 of them, so the
overdecomposition `ErrChk` branch is unreachable — `chareNodes` returns the
built groupings for every input. -/
theorem chareNodes_error_unreachable (tet che : List Nat) :
    (∀ p ∈ chareNodesAcc tet che 0 [], 4 ≤ p.2.length ∧ p.2.length % 4 = 0) ∧
    chareNodes tet che = Except.ok (chareNodesAcc tet che 0 []) := by
  have hinv := chareNodesAcc_block_invariant tet che 0 [] (by simp)
  refine ⟨hinv, ?_⟩
  unfold chareNodes
  rw [if_neg ?_]
  intro hany
  obtain ⟨p, hp, he⟩ := List.any_eq_true.mp hany
  have := (hinv p hp).1
  rw [List.isEmpty_iff.mp he] at this
  simp at this

/-- Witness for `chareNodes_error_unreachable`, instantiating the grouping
invariant at the single entry built from one element assigned to chare 0. -/
theorem chareNodes_error_unreachable_witness :
    4 ≤ ([7, 8, 9, 10] : List Nat).length ∧
      ([7, 8, 9, 10] : List Nat).length % 4 = 0 :=
  (chareNodes_error_unreachable [7, 8, 9, 10] [0]).1 (0, [7, 8, 9, 10])
    (by decide)

/-! ## `Partitioner::bounds` and the lower-bound chain

Source (lines 493–516):
```
void bounds() {
  m_upper = 0;
  for (const auto& c : m_chcid) {
    auto x = std::max_element( begin(c.second), end(c.second),
             []( const pair_type& a, const pair_type& b )
             { return a.first < b.first; } );
    if (x->first > m_upper) m_upper = x->first;
  }
  if (CkMyPe() == CkNumPes()-1) ++m_upper;
  trigger_upper();
  if (CkMyPe() == 0) lower(0);
  if (CkMyPe() < CkNumPes()-1)
    Group::thisProxy[ CkMyPe()+1 ].lower( m_upper );
}
```
and `lower` (lines 219–222) stores the received value in `m_lower`. We model
one PE's `m_chcid` by the per-chare lists of its inverse-map entries
(`List (List (Nat × Nat))`, entry = (new ID, old ID)), and the whole machine
by `cs`, the list of these indexed by PE rank. -/

/-- Maximum of a list of naturals, folded from 0. -/
def listMax (l : List Nat) : Nat := l.foldl max 0

/-- Largest new node ID of one chare's inverse map: `std::max_element` over
the entries compared by `.first` (the new ID). The source dereferences the
result unconditionally, which is undefined for an empty map; folding from 0
is a conservative model of that case (the chare maps are non-empty in every
run that reaches `bounds`). -/
def maxKey (m : List (Nat × Nat)) : Nat :=
  m.foldl (fun u e => max u e.1) 0

/-- The accumulation loop of `bounds`: the running `m_upper`, starting at 0,
maxed with each chare's largest new ID. -/
def bounds_upper_raw (chcid : List (List (Nat × Nat))) : Nat :=
  chcid.foldl (fun u c => max u (maxKey c)) 0

/-- `m_upper` as computed by `bounds` on PE `mype` of `npes`: the loop result,
incremented — to make the final bound exclusive — on the last PE only. -/
def bounds_upper (mype npes : Nat) (chcid : List (List (Nat × Nat))) : Nat :=
  bounds_upper_raw chcid + (if mype = npes - 1 then 1 else 0)

/-- The upper bound of PE `p`, the whole machine's chare data given by `cs`
(per-PE `m_chcid` key data, indexed by rank). -/
def upperAt (npes : Nat) (cs : List (List (List (Nat × Nat)))) (p : Nat) : Nat :=
  bounds_upper p npes (cs.getD p [])

/-- The lower bound of PE `p`: `bounds` seeds PE 0 with `lower(0)` and every
other PE receives its predecessor's `m_upper` by the point-to-point
`thisProxy[CkMyPe()+1].lower(m_upper)` call. -/
def lowerAt (npes : Nat) (cs : List (List (List (Nat × Nat)))) : Nat → Nat
  | 0 => 0
  | p + 1 => upperAt npes cs p

/-- Modelled from the spec: the maximum new node ID among the nodes the PE's
chares contribute to — the largest key occurring anywhere in its `m_chcid`. -/
def maxNewId (chcid : List (List (Nat × Nat))) : Nat :=
  listMax (chcid.flatten.map Prod.fst)

/-- Folding `max` from an arbitrary seed equals `max` of the seed and the
fold from 0. -/
theorem foldl_max_eq (l : List Nat) (a : Nat) :
    l.foldl max a = max a (listMax l) := by
  induction l generalizing a with
  | nil => simp [listMax]
  | cons x xs ih =>
    show xs.foldl max (max a x) = max a (listMax (x :: xs))
    rw [ih (max a x)]
    have : listMax (x :: xs) = max x (listMax xs) := by
      show xs.foldl max (max 0 x) = _
      rw [ih (max 0 x), Nat.zero_max]
    rw [this, max_assoc]

/-- `listMax` of a concatenation. -/
theorem listMax_append (l₁ l₂ : List Nat) :
    listMax (l₁ ++ l₂) = max (listMax l₁) (listMax l₂) := by
  show (l₁ ++ l₂).foldl max 0 = _
  rw [List.foldl_append, foldl_max_eq]
  rfl

/-- `listMax` of a flattened list of lists. -/
theorem listMax_flatten (L : List (List Nat)) :
    listMax L.flatten = listMax (L.map listMax) := by
  induction L with
  | nil => rfl
  | cons x xs ih =>
    rw [List.flatten_cons, listMax_append, ih, List.map_cons]
    show _ = (xs.map listMax).foldl max (max 0 (listMax x))
    rw [foldl_max_eq, Nat.zero_max]

/-- The chare-wise max of one chare equals the flat max of its keys. -/
theorem maxKey_eq (c : List (Nat × Nat)) :
    maxKey c = listMax (c.map Prod.fst) := by
  show c.foldl (fun u e => max u e.1) 0 = (c.map Prod.fst).foldl max 0
  rw [List.foldl_map]

/-- Refinement: the chare-wise accumulation loop of `bounds` computes exactly
the spec's maximum new node ID over all nodes the PE's chares contribute to. -/
theorem bounds_upper_raw_eq (chcid : List (List (Nat × Nat))) :
    bounds_upper_raw chcid = maxNewId chcid := by
  show chcid.foldl (fun u c => max u (maxKey c)) 0 = _
  have h1 : chcid.foldl (fun u c => max u (maxKey c)) 0 =
      (chcid.map maxKey).foldl max 0 := by rw [List.foldl_map]
  rw [h1]
  show listMax (chcid.map maxKey) = maxNewId chcid
  unfold maxNewId
  rw [List.map_flatten, listMax_flatten, List.map_map]
  congr 1
  exact List.map_congr_left (fun c _ => (maxKey_eq c).symm) |>.symm

/-- C3 counterexample: a non-last PE's upper bound is the maximum new node ID
among its contributed nodes, not one past it. With two PEs where PE 0's single
chare holds the inverse-map entry `(2, 7)` (new ID 2), `bounds` computes
`m_upper = 2` on PE 0, while the claim demands `2 + 1 = 3`. -/
theorem bounds_upper_not_one_past :
    upperAt 2 [[[(2, 7)]], [[(4, 9)]]] 0 = 2 ∧
    maxNewId [[(2, 7)]] + 1 = 3 ∧
    upperAt 2 [[[(2, 7)]], [[(4, 9)]]] 0 ≠ maxNewId [[(2, 7)]] + 1 := by decide

/-- The step-wise monotonicity of the uppers extends along the rank chain. -/
theorem upperAt_mono_chain (npes : Nat) (cs : List (List (List (Nat × Nat))))
    (hmono : ∀ p, p + 1 < npes → upperAt npes cs p ≤ upperAt npes cs (p + 1)) :
    ∀ q p, p ≤ q → q < npes → upperAt npes cs p ≤ upperAt npes cs q := by
  intro q
  induction q with
  | zero =>
    intro p hp _
    have h0 : p = 0 := Nat.le_zero.mp hp
    rw [h0]
  | succ n ih =>
    intro p hp hq
    rcases Nat.lt_or_ge p (n + 1) with h | h
    · exact le_trans (ih p (Nat.lt_succ_iff.mp h) (by omega)) (hmono n hq)
    · have he : p = n + 1 := by omega
      rw [he]

/-- Any point below PE `p`'s upper bound lies in the range of some PE of rank
at most `p`: the ranges chain, each lower bound being the predecessor's upper
bound. -/
theorem bounds_cover (npes : Nat) (cs : List (List (List (Nat × Nat)))) :
    ∀ p x, x < upperAt npes cs p →
      ∃ q, q ≤ p ∧ lowerAt npes cs q ≤ x ∧ x < upperAt npes cs q := by
  intro p
  induction p with
  | zero =>
    intro x hx
    exact ⟨0, Nat.le_refl 0, Nat.zero_le x, hx⟩
  | succ n ih =>
    intro x hx
    by_cases h : x < upperAt npes cs n
    · obtain ⟨q, hq, h1, h2⟩ := ih x h
      exact ⟨q, le_trans hq (Nat.le_succ n), h1, h2⟩
    · exact ⟨n + 1, Nat.le_refl _, Nat.le_of_not_lt h, hx⟩

/-- C3 as amended: after every PE has run `bounds`, PE 0's lower bound is 0
and every other PE's lower bound is the upper bound received point-to-point
from its rank predecessor; each non-last PE's upper bound equals the maximum
new node ID among the nodes its chares contribute to (inclusive, not one
past), and only the last PE rounds its upper bound up by one to make the
global range exclusive. Whenever the uppers are monotone along ranks and the
last PE's upper bound equals the total node count, the half-open ranges
`[lower_p, upper_p)`, ordered by rank, partition `[0, totalNodes)` with
`upper_p = lower_(p+1)`. -/
theorem bounds_partition (npes : Nat) (cs : List (List (List (Nat × Nat))))
    (total : Nat) (h1 : 1 ≤ npes)
    (hmono : ∀ p, p + 1 < npes → upperAt npes cs p ≤ upperAt npes cs (p + 1))
    (hlast : upperAt npes cs (npes - 1) = total) :
    lowerAt npes cs 0 = 0 ∧
    (∀ p, lowerAt npes cs (p + 1) = upperAt npes cs p) ∧
    (∀ p, p + 1 < npes → upperAt npes cs p = maxNewId (cs.getD p [])) ∧
    upperAt npes cs (npes - 1) = maxNewId (cs.getD (npes - 1) []) + 1 ∧
    (∀ x, x < total ↔
      ∃ p, p < npes ∧ lowerAt npes cs p ≤ x ∧ x < upperAt npes cs p) := by
  refine ⟨rfl, fun p => rfl, ?_, ?_, ?_⟩
  · intro p hp
    unfold upperAt bounds_upper
    rw [if_neg (by omega), bounds_upper_raw_eq, Nat.add_zero]
  · unfold upperAt bounds_upper
    rw [if_pos rfl, bounds_upper_raw_eq]
  · intro x
    constructor
    · intro hx
      obtain ⟨q, hq, hl, hu⟩ :=
        bounds_cover npes cs (npes - 1) x (by omega)
      exact ⟨q, by omega, hl, hu⟩
    · rintro ⟨p, hp, hl, hu⟩
      have hchain := upperAt_mono_chain npes cs hmono (npes - 1) p
        (by omega) (by omega)
      omega

/-- Witness for `bounds_partition`: two PEs, PE 0 contributing new IDs up to 2
and PE 1 up to 4, total 5 — the ranges are `[0, 2)` and `[2, 5)`. -/
theorem bounds_partition_witness :
    lowerAt 2 [[[(2, 7)]], [[(4, 9)]]] 1 = upperAt 2 [[[(2, 7)]], [[(4, 9)]]] 0 ∧
    (∀ x, x < 5 ↔ ∃ p, p < 2 ∧ lowerAt 2 [[[(2, 7)]], [[(4, 9)]]] p ≤ x ∧
      x < upperAt 2 [[[(2, 7)]], [[(4, 9)]]] p) :=
  have h := bounds_partition 2 [[[(2, 7)]], [[(4, 9)]]] 5 (by decide)
    (fun p hp => by
      have hp0 : p = 0 := by omega
      subst hp0
      decide)
    (by decide)
  ⟨h.2.1 0, h.2.2.2.2⟩

end Quinoa
